import Mathlib

/-!
Verification of the native shell of the Pandia JSON editor
(`src/src-tauri/src/main.rs`) against its specification.

The development shallowly embeds the Rust source: pure functions become Lean
functions, the pending-file queue becomes explicit state passing, Tauri
commands returning `Result<T, String>` become `Except String T`.  Paths are
modelled as Unix paths (the string before the extension is split at `'/'`).
-/

namespace Pandia

/-! ## Extension filter (`is_supported_file`, main.rs lines 22-33) -/

/-- `SUPPORTED_EXTENSIONS` from main.rs line 23. -/
def SUPPORTED_EXTENSIONS : List String := ["json", "jsonc", "json5", "geojson", "jsonl", "ndjson"]

/-- Split a character list into the groups separated by `sep` (groups may be
empty, as in Rust's `split`). -/
def splitOnChar (sep : Char) (cs : List Char) : List (List Char) :=
  cs.foldr
    (fun c acc =>
      if c = sep then [] :: acc
      else
        match acc with
        | g :: gs => (c :: g) :: gs
        | [] => [[c]])
    [[]]

/-- `std::path::Path::file_name` on a Unix path: the last component after
normalizing away empty components and `"."` components; `none` when nothing
remains or the path terminates in `".."`. -/
def fileName (path : String) : Option (List Char) :=
  let comps := (splitOnChar '/' path.data).filter (fun c => decide (c ≠ [] ∧ c ≠ ['.']))
  match comps.getLast? with
  | none => none
  | some c => if c = ['.', '.'] then none else some c

/-- The characters after the last `'.'` of `cs`, or `none` when `cs` has no
dot.  Searches from the right (the innermost recursive answer wins). -/
def afterLastDot : List Char → Option (List Char)
  | [] => none
  | c :: cs =>
    match afterLastDot cs with
    | some r => some r
    | none => if c = '.' then some cs else none

/-- `std::path::Path::extension`: the portion of the file name after its last
`'.'`, where a dot at position 0 does not count (so `".json"` has no
extension), and `none` when there is no file name or no dot. -/
def pathExtension (path : String) : Option String :=
  match fileName path with
  | none => none
  | some f =>
    match f with
    | [] => none
    | _ :: rest => (afterLastDot rest).map (fun cs => String.mk cs)

/-- Rust `str::to_lowercase`, restricted to the per-character mapping.  For
deciding membership in `SUPPORTED_EXTENSIONS` (all-ASCII words) this agrees
with the Unicode mapping: no character outside ASCII lowercases into any of
the letters or digits appearing in the supported extensions. -/
def toLowerStr (s : String) : String := String.mk (s.data.map Char.toLower)

/-- `is_supported_file` (main.rs lines 26-33): a path is supported when its
extension, lowercased, is one of `SUPPORTED_EXTENSIONS`.  Pure — no I/O and
total (it cannot fail). -/
def is_supported_file (path : String) : Bool :=
  match pathExtension path with
  | some ext => SUPPORTED_EXTENSIONS.contains (toLowerStr ext)
  | none => false

/-- Case-insensitive string comparison, as the spec's side of C6 words it:
two strings are equal up to case when lowercasing each character makes them
equal. -/
def eqCaseInsensitive (a b : String) : Prop :=
  a.data.map Char.toLower = b.data.map Char.toLower

instance (a b : String) : Decidable (eqCaseInsensitive a b) := by
  unfold eqCaseInsensitive; infer_instance

theorem toLowerStr_data (t : String) : (toLowerStr t).data = t.data.map Char.toLower := rfl

theorem toLowerStr_eq_iff_eqCI (e s : String) (hs : toLowerStr s = s) :
    toLowerStr e = s ↔ eqCaseInsensitive e s := by
  have hsd : s.data.map Char.toLower = s.data := by
    have := congrArg String.data hs
    rwa [toLowerStr_data] at this
  unfold eqCaseInsensitive
  constructor
  · intro h
    have h2 := congrArg String.data h
    rw [toLowerStr_data] at h2
    rw [h2, hsd]
  · intro h
    show String.mk (e.data.map Char.toLower) = s
    rw [h, hsd]

/-- C6: supported iff the extension, compared case-insensitively, is one of
the six supported extensions. -/
theorem C6_is_supported_iff (p : String) :
    (is_supported_file p = true ↔
      ∃ e, pathExtension p = some e ∧
        ∃ s ∈ SUPPORTED_EXTENSIONS, eqCaseInsensitive e s) ∧
    (pathExtension p = none → is_supported_file p = false) := by
  constructor
  · unfold is_supported_file
    cases hx : pathExtension p with
    | none =>
      simp only [Bool.false_eq_true, false_iff]
      rintro ⟨e, he, -⟩
      simp at he
    | some e =>
      simp only [Option.some.injEq]
      have hfix : ∀ s ∈ SUPPORTED_EXTENSIONS, toLowerStr s = s := by decide
      constructor
      · intro h
        have hmem : toLowerStr e ∈ SUPPORTED_EXTENSIONS := List.elem_iff.mp h
        refine ⟨e, rfl, toLowerStr e, hmem, ?_⟩
        exact (toLowerStr_eq_iff_eqCI e (toLowerStr e) (hfix _ hmem)).mp rfl
      · rintro ⟨e2, he2, s, hs, hci⟩
        cases he2
        have heq : toLowerStr e = s := (toLowerStr_eq_iff_eqCI e s (hfix s hs)).mpr hci
        exact List.elem_iff.mpr (heq ▸ hs)
  · intro h
    unfold is_supported_file
    simp [h]

/-- C6 witness: concrete evaluations through the theorem. -/
theorem C6_is_supported_iff_witness :
    is_supported_file "/tmp/notes.JSON" = true ∧ is_supported_file "Makefile" = false := by
  constructor
  · exact (C6_is_supported_iff "/tmp/notes.JSON").1.mpr
      ⟨"JSON", by decide, "json", by decide, by decide⟩
  · exact (C6_is_supported_iff "Makefile").2 (by decide)

/-! ## Pending-file queue (`AppState.pending_files`, `emit_file_open`,
`get_pending_files`, CLI seeding in `run`; main.rs lines 16-20, 36-60, 63-81,
393-401)

The queue is the `Vec<String>` behind the mutex; each operation holds the lock
for its whole body, so the observable behaviour is the sequential one modelled
here. -/

/-- Rust `arg.starts_with('-')` with a `char` pattern: the first character is
`'-'`. -/
def startsWithDash (s : String) : Bool :=
  match s.data with
  | [] => false
  | c :: _ => c = '-'

/-- The CLI seeding of the queue (main.rs lines 64-68): skip the executable
path (the first argument), keep non-flag supported paths in order. -/
def cli_files (args : List String) : List String :=
  (args.drop 1).filter (fun arg => !startsWithDash arg && is_supported_file arg)

/-- Result of `emit_file_open`: the event emitted to the window (if any) and
the new queue contents. -/
structure EmitOutcome where
  event : Option (String × List String)
  queue : List String
deriving DecidableEq, Repr

/-- `emit_file_open` (main.rs lines 36-60): drop everything when the batch is
empty; filter to supported files and drop everything when none survive;
forward a `"file-open"` event when the window exists; otherwise append to the
pending queue. -/
def emit_file_open (hasWindow : Bool) (pending : List String) (paths : List String) :
    EmitOutcome :=
  if paths.isEmpty then ⟨none, pending⟩
  else
    let supported_paths := paths.filter is_supported_file
    if supported_paths.isEmpty then ⟨none, pending⟩
    else if hasWindow then ⟨some ("file-open", supported_paths), pending⟩
    else ⟨none, pending ++ supported_paths⟩

/-- `get_pending_files` (main.rs lines 395-401): `drain(..)` returns the whole
queue in order and leaves it empty; the command never fails. -/
def get_pending_files (pending : List String) :
    Except String (List String) × List String :=
  (Except.ok pending, [])

/-- One queue operation: either the enqueue branch of `emit_file_open` (no
window attached) with a raw batch of paths, or a drain (`get_pending_files`). -/
inductive QueueOp where
  | enqueue (paths : List String)
  | drain
deriving DecidableEq, Repr

/-- Run a sequence of queue operations from a starting queue; returns the
outputs of the drains, in order, and the final queue contents. -/
def runOps (pending : List String) : List QueueOp → List (List String) × List String
  | [] => ([], pending)
  | QueueOp.enqueue paths :: ops => runOps (emit_file_open false pending paths).queue ops
  | QueueOp.drain :: ops =>
    let rest := runOps (get_pending_files pending).2 ops
    (((get_pending_files pending).1.toOption.getD []) :: rest.1, rest.2)

/-- The multiset of supported, filtered paths enqueued by a list of operations. -/
def enqueuedPaths : List QueueOp → Multiset String
  | [] => 0
  | QueueOp.enqueue paths :: ops => ↑(paths.filter is_supported_file) + enqueuedPaths ops
  | QueueOp.drain :: ops => enqueuedPaths ops

/-- The enqueue branch always appends exactly the supported survivors of the
batch (the two early returns append nothing, which is the same thing). -/
theorem emit_file_open_queue (pending paths : List String) :
    (emit_file_open false pending paths).queue = pending ++ paths.filter is_supported_file := by
  unfold emit_file_open
  rcases paths with - | ⟨p, ps⟩
  · simp
  · simp only [List.isEmpty_cons, Bool.false_eq_true, if_false]
    by_cases h : ((p :: ps).filter is_supported_file).isEmpty
    · simp [h, List.isEmpty_iff.mp h]
    · simp [h]

/-- The multiset union of a list of drain outputs. -/
def drainedPaths (outs : List (List String)) : Multiset String :=
  outs.foldr (fun out acc => ↑out + acc) 0

/-- C1: conservation of intents.  Starting from the CLI-seeded queue and
running any interleaving of enqueue and drain operations, the multiset of
CLI-seeded paths plus all supported filtered paths ever enqueued equals the
multiset union of all drain outputs plus whatever remains in the queue. -/
theorem C1_queue_conservation (args : List String) (ops : List QueueOp) :
    (↑(cli_files args) : Multiset String) + enqueuedPaths ops =
      drainedPaths (runOps (cli_files args) ops).1 + ↑(runOps (cli_files args) ops).2 := by
  generalize cli_files args = init
  induction ops generalizing init with
  | nil => simp [runOps, enqueuedPaths, drainedPaths]
  | cons op ops ih =>
    cases op with
    | enqueue paths =>
      simp only [runOps, enqueuedPaths, emit_file_open_queue]
      rw [← add_assoc]
      have := ih (init ++ paths.filter is_supported_file)
      simpa using this
    | drain =>
      show (↑init : Multiset String) + enqueuedPaths ops =
        drainedPaths (init :: (runOps [] ops).1) + ↑(runOps [] ops).2
      rw [show drainedPaths (init :: (runOps [] ops).1) =
        ↑init + drainedPaths (runOps [] ops).1 from rfl]
      have h := ih []
      rw [show ((([] : List String) : Multiset String)) = 0 from rfl, zero_add] at h
      rw [h, add_assoc]

/-- C2: a drain returns the entire queue contents in arrival order as a
successful (non-error) result and empties the queue; a second drain with no
intervening enqueue succeeds with the empty sequence.  The last conjunct ties
the order to arrivals: draining right after an enqueue returns the old
contents followed by the newly appended survivors. -/
theorem C2_drain_all (pending : List String) :
    get_pending_files pending = (Except.ok pending, []) ∧
    get_pending_files (get_pending_files pending).2 = (Except.ok [], []) ∧
    (∀ paths, (get_pending_files (emit_file_open false pending paths).queue).1 =
      Except.ok (pending ++ paths.filter is_supported_file)) := by
  refine ⟨rfl, rfl, fun paths => ?_⟩
  rw [emit_file_open_queue]
  rfl

/-- The spec side of C4: keep exactly the arguments whose index is positive
(not the executable path), which are not flag-like, and which are supported,
in their original order. -/
def cliSeedSpec (args : List String) : List String :=
  (args.enum.filter
      (fun p => decide (1 ≤ p.1) && (!startsWithDash p.2 && is_supported_file p.2))).map
    Prod.snd

theorem enumFrom_filter_snd (P : String → Bool) :
    ∀ (l : List String) (n : Nat), 1 ≤ n →
      ((l.enumFrom n).filter (fun p => decide (1 ≤ p.1) && P p.2)).map Prod.snd = l.filter P
  | [], _, _ => rfl
  | a :: l, n, hn => by
    have h1 : decide (1 ≤ n) = true := by simpa using hn
    simp only [List.enumFrom, List.filter_cons, h1, Bool.true_and]
    by_cases hP : P a
    · simp [hP, enumFrom_filter_snd P l (n + 1) (by omega)]
    · simp [hP, enumFrom_filter_snd P l (n + 1) (by omega)]

/-- C4: the CLI seeding keeps exactly the non-executable, non-flag, supported
arguments in order, and the end-to-end example: seeding with `notes.json5`,
`--flag`, `image.png` queues exactly `notes.json5`; the first drain returns it
and the second drain returns the empty list. -/
theorem C4_cli_seeding :
    (∀ args : List String, cli_files args = cliSeedSpec args) ∧
    cli_files ["/usr/bin/pandia", "notes.json5", "--flag", "image.png"] = ["notes.json5"] ∧
    get_pending_files (cli_files ["/usr/bin/pandia", "notes.json5", "--flag", "image.png"]) =
      (Except.ok ["notes.json5"], []) ∧
    get_pending_files [] = (Except.ok [], []) := by
  refine ⟨fun args => ?_, rfl, rfl, rfl⟩
  unfold cliSeedSpec cli_files List.enum
  cases args with
  | nil => rfl
  | cons exe rest =>
    simp only [List.enumFrom, List.filter_cons, List.drop_succ_cons, List.drop_zero]
    have h0 : (decide (1 ≤ 0) && (!startsWithDash exe && is_supported_file exe)) = false := by
      simp
    rw [h0]
    simp only [Bool.false_eq_true, if_false, Nat.zero_add]
    exact (enumFrom_filter_snd _ rest 1 le_rfl).symm

/-! ## OS open-file events (`RunEvent::Opened` handler in `run`, main.rs
lines 107-127) -/

/-- A URL as the event handler observes it: its scheme and the result of
`url.to_file_path()` (`none` models `Err`, a resolution failure). -/
structure Url where
  scheme : String
  toFilePath : Option String
deriving DecidableEq, Repr

/-- The `RunEvent::Opened` arm (main.rs lines 110-124): keep `file`-scheme
URLs, resolve each to a path dropping the ones whose resolution fails, then
hand the batch to `emit_file_open`. -/
def handle_opened (hasWindow : Bool) (pending : List String) (urls : List Url) : EmitOutcome :=
  let paths := urls.filterMap
    (fun url => if url.scheme = "file" then url.toFilePath else none)
  emit_file_open hasWindow pending paths

/-- C3: for every batch of URLs, with `kept` the supported survivors of the
file-scheme URLs that resolve: an empty `kept` changes nothing; with a window
the batch is forwarded as one `"file-open"` event and the queue is untouched;
without a window the batch is appended to the queue.  Stated with the spec's
decomposition (scheme filter first, then resolution, then extension filter). -/
theorem C3_opened_event (hasWindow : Bool) (pending : List String) (urls : List Url) :
    handle_opened hasWindow pending urls =
      (let kept := ((urls.filter (fun url => url.scheme = "file")).filterMap
          Url.toFilePath).filter is_supported_file
       if kept.isEmpty then ⟨none, pending⟩
       else if hasWindow then ⟨some ("file-open", kept), pending⟩
       else ⟨none, pending ++ kept⟩) := by
  have hsplit : urls.filterMap (fun url => if url.scheme = "file" then url.toFilePath else none)
      = (urls.filter (fun url => url.scheme = "file")).filterMap Url.toFilePath := by
    induction urls with
    | nil => rfl
    | cons u us ih =>
      by_cases h : u.scheme = "file"
      · have hf : List.filter (fun url => decide (url.scheme = "file")) (u :: us)
            = u :: List.filter (fun url => decide (url.scheme = "file")) us := by
          simp [List.filter_cons, h]
        rw [List.filterMap_cons, hf, List.filterMap_cons]
        simp only [h, if_true]
        cases hu : u.toFilePath <;> simp [hu, ih]
      · have hf : List.filter (fun url => decide (url.scheme = "file")) (u :: us)
            = List.filter (fun url => decide (url.scheme = "file")) us := by
          simp [List.filter_cons, h]
        rw [List.filterMap_cons, hf]
        simp only [h, if_false]
        exact ih
  unfold handle_opened emit_file_open
  rw [hsplit]
  set kept := ((urls.filter (fun url => url.scheme = "file")).filterMap
    Url.toFilePath).filter is_supported_file with hkept
  by_cases hempty : ((urls.filter (fun url => url.scheme = "file")).filterMap
      Url.toFilePath).isEmpty
  · have : kept.isEmpty := by
      rw [hkept, List.isEmpty_iff.mp hempty]
      rfl
    simp [hempty, this]
  · simp only [hempty, Bool.false_eq_true, if_false, ← hkept]
    try rfl

/-- C3 example: the spec's end-to-end open-event scenario.  With no window,
`file:///a.json` survives while the `http` URL and the unsupported `.txt`
path are dropped and the queue gains exactly `/a.json`; with a window the
same batch is forwarded live and the queue stays empty. -/
theorem C3_opened_event_example :
    handle_opened false []
        [⟨"file", some "/a.json"⟩, ⟨"http", some "x"⟩, ⟨"file", some "/b.txt"⟩] =
      ⟨none, ["/a.json"]⟩ ∧
    handle_opened true []
        [⟨"file", some "/a.json"⟩, ⟨"http", some "x"⟩, ⟨"file", some "/b.txt"⟩] =
      ⟨some ("file-open", ["/a.json"]), []⟩ := by
  constructor <;> rfl

/-! ## Recent-files menu (`update_recent_files_menu`, main.rs lines 403-446)

The source first pops every existing item of the `Open Recent` submenu
(`while let Ok(Some(item)) = recent_menu.remove_at(0)`), so the resulting
region depends only on the `recent_files` argument; the model returns the
rebuilt region directly.  A `MenuItem.item` carries the identifier, the label
and the enabled flag (`MenuItemBuilder` defaults to enabled). -/

structure RecentFile where
  path : String
  name : String
deriving DecidableEq, Repr

inductive MenuItem where
  | item (id : String) (label : String) (enabled : Bool)
  | separator
deriving DecidableEq, Repr

/-- The disabled placeholder (main.rs lines 419-422 and 157-159). -/
def noRecentItem : MenuItem := MenuItem.item "no_recent" "No Recent Files" false

/-- The clear action (main.rs lines 439-441 and 160-161). -/
def clearRecentItem : MenuItem := MenuItem.item "clear_recent_files" "Clear Recent Files" true

/-- `update_recent_files_menu` (main.rs lines 403-446): after clearing, append
the placeholder when `recent_files` is empty, otherwise the first ten entries
as enabled items whose identifier is `recent_file_{index}` and whose label is
the entry's `name`; then append a separator and the clear action. -/
def update_recent_files_menu (recent_files : List RecentFile) : List MenuItem :=
  (if recent_files.isEmpty then [noRecentItem]
   else (recent_files.take 10).enum.map
     (fun p => MenuItem.item ("recent_file_" ++ toString p.1) p.2.name true))
  ++ [MenuItem.separator, clearRecentItem]

/-- The spec side of C5, worded as in §4.4: one disabled placeholder when
`entries` is empty, otherwise the first `min 10 (length entries)` entries in
input order as clickable items labelled by `name` with a positional
identifier; in both cases a trailing separator and clear item. -/
def recentRegionSpec (entries : List RecentFile) : List MenuItem :=
  (if entries.isEmpty then [MenuItem.item "no_recent" "No Recent Files" false]
   else (entries.take 10).mapIdx
     (fun i entry => MenuItem.item ("recent_file_" ++ toString i) entry.name true))
  ++ [MenuItem.separator, MenuItem.item "clear_recent_files" "Clear Recent Files" true]

/-- C5: the rebuilt region is exactly the spec's region, and its item count is
one placeholder when empty, otherwise `min 10 (length entries)` clickable
entries, plus the separator and the clear item. -/
theorem C5_recent_files_menu (entries : List RecentFile) :
    update_recent_files_menu entries = recentRegionSpec entries ∧
    (update_recent_files_menu entries).length =
      (if entries.isEmpty then 1 else min 10 entries.length) + 2 := by
  constructor
  · unfold update_recent_files_menu recentRegionSpec noRecentItem clearRecentItem
    rw [List.mapIdx_eq_enum_map]
    rfl
  · unfold update_recent_files_menu
    by_cases h : entries.isEmpty
    · simp [h]
    · simp only [h, Bool.false_eq_true, if_false, List.length_append, List.length_map,
        List.enum_length, List.length_take]
      simp [min_comm]

/-- C5 example: fifteen entries keep only the first ten, in input order, and
the empty list yields placeholder, separator, clear. -/
theorem C5_recent_files_menu_example :
    update_recent_files_menu [] = [noRecentItem, MenuItem.separator, clearRecentItem] ∧
    update_recent_files_menu
        ((List.range 15).map (fun i => ⟨"/p" ++ toString i, "n" ++ toString i⟩)) =
      ((List.range 10).map
        (fun i => MenuItem.item ("recent_file_" ++ toString i) ("n" ++ toString i) true))
        ++ [MenuItem.separator, clearRecentItem] := by
  constructor <;> rfl

/-! ## `read_file_content` (main.rs lines 312-318)

The filesystem is abstracted as a map from paths to the result of
`std::fs::read_to_string`: the file's content on success, or the `Display`
rendering of the `std::io::Error` on failure.  The command consults the
filesystem exactly once (no retry). -/

/-- `read_file_content`: forward the content on success, and on failure
return `format!("Failed to read file: {}", err)`. -/
def read_file_content (fs : String → Except String String) (path : String) :
    Except String String :=
  match fs path with
  | Except.ok content => Except.ok content
  | Except.error err => Except.error ("Failed to read file: " ++ err)

/-- A filesystem on which every read fails with a fixed OS error message. -/
def fsAllMissing : String → Except String String :=
  fun _ => Except.error "No such file or directory (os error 2)"

/-- C9 counterexample: the error returned to the caller is not the underlying
system error message surfaced verbatim — it carries the
`"Failed to read file: "` prefix. -/
theorem C9_error_not_verbatim :
    read_file_content fsAllMissing "/missing.json" ≠
      Except.error "No such file or directory (os error 2)" := by
  show Except.error ("Failed to read file: " ++ "No such file or directory (os error 2)") ≠ _
  intro h
  exact absurd (Except.error.inj h) (by decide)

/-- C9 amended: on failure the command returns the underlying system error
message prefixed with `"Failed to read file: "` (a single lookup, so no
retry), and on success it returns the file's content unchanged. -/
theorem C9_read_file_content (fs : String → Except String String) (path : String) :
    (∀ err, fs path = Except.error err →
      read_file_content fs path = Except.error ("Failed to read file: " ++ err)) ∧
    (∀ content, fs path = Except.ok content →
      read_file_content fs path = Except.ok content) := by
  constructor
  · intro err h
    unfold read_file_content
    rw [h]
  · intro content h
    unfold read_file_content
    rw [h]

/-- C9 witness: the amended theorem applied to the all-missing filesystem. -/
theorem C9_read_file_content_witness :
    read_file_content fsAllMissing "/missing.json" =
      Except.error ("Failed to read file: " ++ "No such file or directory (os error 2)") :=
  (C9_read_file_content fsAllMissing "/missing.json").1
    "No such file or directory (os error 2)" rfl

/-! ## `calculate_json_size` (main.rs lines 377-391)

`raw` is `content.len()`, the UTF-8 byte length.  The estimates are
`(raw as f64 * 0.7) as usize` and `(raw as f64 * 0.6) as usize`: an exact
binary64 multiplication (round to nearest, ties to even) followed by
truncation toward zero.  The model computes that float arithmetic exactly
over `Nat`, representing the constants by their binary64 significands
(`0.7 = mant07 / 2^53`, `0.6 = mant06 / 2^53`); it is exact for
`raw < 2^53`, where `raw as f64` is the identity (every real string is far
below that size). -/

/-- Rust `char` UTF-8 width (`char::len_utf8`). -/
def charUtf8Size (c : Char) : Nat :=
  if c.toNat < 0x80 then 1
  else if c.toNat < 0x800 then 2
  else if c.toNat < 0x10000 then 3
  else 4

/-- Rust `str::len`: the UTF-8 byte length. -/
def rustByteLen (s : String) : Nat :=
  (s.data.map charUtf8Size).sum

/-- The binary64 significand of `0.7`: the nearest double to `0.7` is
`6305039478318694 / 2 ^ 53`. -/
def mant07 : Nat := 6305039478318694

/-- The binary64 significand of `0.6`: the nearest double to `0.6` is
`5404319552844595 / 2 ^ 53`. -/
def mant06 : Nat := 5404319552844595

/-- Round `num / den` to the nearest integer, ties to even (IEEE-754 default
rounding applied to an exact rational). -/
def roundHalfEven (num den : Nat) : Nat :=
  if 2 * (num % den) < den then num / den
  else if den < 2 * (num % den) then num / den + 1
  else if (num / den) % 2 = 0 then num / den else num / den + 1

/-- `(x as f64 * c) as usize` where `c = mant / 2 ^ 53` is a binary64 value in
`[1/2, 1)` and `x < 2 ^ 53`: the exact product `x * mant / 2 ^ 53` is rounded
to the binary64 grid of its binade (spacing `2 ^ (L - 105)` where
`2 ^ (L - 53)` bounds the product below) and then truncated toward zero. -/
def f64MulTrunc (mant x : Nat) : Nat :=
  if x = 0 then 0
  else
    let N := x * mant
    let L := Nat.log 2 N
    let k := if 52 ≤ L then roundHalfEven N (2 ^ (L - 52)) else N * 2 ^ (52 - L)
    if 105 ≤ L then k * 2 ^ (L - 105) else k / 2 ^ (105 - L)

/-- The record returned by `calculate_json_size`. -/
structure SizeInfo where
  raw : Nat
  gzip : Nat
  brotli : Nat
deriving DecidableEq, Repr

/-- `calculate_json_size` (main.rs lines 377-391): never fails, measures the
byte length without parsing, and estimates the compressed sizes by the fixed
float ratios. -/
def calculate_json_size (content : String) : Except String SizeInfo :=
  Except.ok
    { raw := rustByteLen content
      gzip := f64MulTrunc mant07 (rustByteLen content)
      brotli := f64MulTrunc mant06 (rustByteLen content) }

/-- C10: `calculate_json_size` succeeds on every input, including strings
that are not valid JSON, and its result depends only on the byte length of
the input — it never parses the content. -/
theorem C10_size_never_fails (content : String) :
    (calculate_json_size content).isOk = true ∧
    (calculate_json_size content = Except.ok
      { raw := rustByteLen content
        gzip := f64MulTrunc mant07 (rustByteLen content)
        brotli := f64MulTrunc mant06 (rustByteLen content) }) ∧
    (∀ other : String, rustByteLen other = rustByteLen content →
      calculate_json_size other = calculate_json_size content) := by
  refine ⟨rfl, rfl, fun other h => ?_⟩
  unfold calculate_json_size
  rw [h]

/-- C10 witness: a string that is not valid JSON still succeeds, and equals
the result on a same-length string. -/
theorem C10_size_never_fails_witness :
    (calculate_json_size "\x7bnot json").isOk = true ∧
    calculate_json_size "\x7bnot json" = calculate_json_size "123456789" := by
  refine ⟨(C10_size_never_fails "\x7bnot json").1, ?_⟩
  exact (C10_size_never_fails "123456789").2.2 "\x7bnot json" (by decide)

theorem roundHalfEven_bounds (num den : Nat) :
    num / den ≤ roundHalfEven num den ∧ roundHalfEven num den ≤ num / den + 1 := by
  unfold roundHalfEven
  split
  · exact ⟨le_rfl, Nat.le_succ _⟩
  split
  · exact ⟨Nat.le_succ _, le_rfl⟩
  split
  · exact ⟨le_rfl, Nat.le_succ _⟩
  · exact ⟨Nat.le_succ _, le_rfl⟩

/-- Truncated float multiplication by a constant in `[1/2, 1)` differs from
the floor of the exact product by at most one: the binade rounding moves the
product by at most one grid step, and a grid step divides `2 ^ 53`. -/
theorem f64MulTrunc_bounds (mant x : Nat) (hm1 : 2 ^ 52 ≤ mant) (hm2 : mant < 2 ^ 53)
    (hx1 : 1 ≤ x) (hx2 : x ≤ 2 ^ 50) :
    x * mant / 2 ^ 53 ≤ f64MulTrunc mant x ∧
      f64MulTrunc mant x ≤ x * mant / 2 ^ 53 + 1 := by
  have hx0 : ¬x = 0 := by omega
  have hNne : x * mant ≠ 0 := Nat.mul_ne_zero (by omega) (by positivity)
  have hN1 : 2 ^ 52 ≤ x * mant := le_trans hm1 (Nat.le_mul_of_pos_left mant (by omega))
  have hN2 : x * mant < 2 ^ 103 := by
    have h1 : x * mant ≤ 2 ^ 50 * mant := Nat.mul_le_mul_right mant hx2
    have h2 : 2 ^ 50 * mant < 2 ^ 50 * 2 ^ 53 :=
      mul_lt_mul_of_pos_left hm2 (by positivity)
    calc x * mant ≤ 2 ^ 50 * mant := h1
      _ < 2 ^ 50 * 2 ^ 53 := h2
      _ = 2 ^ 103 := by rw [← pow_add]
  have hL1 : 52 ≤ Nat.log 2 (x * mant) :=
    (Nat.pow_le_iff_le_log (by norm_num) hNne).mp hN1
  have hL2 : Nat.log 2 (x * mant) < 103 :=
    (Nat.lt_pow_iff_log_lt (by norm_num) hNne).mp hN2
  have hL3 : ¬105 ≤ Nat.log 2 (x * mant) := by omega
  have hres : f64MulTrunc mant x =
      roundHalfEven (x * mant) (2 ^ (Nat.log 2 (x * mant) - 52)) /
        2 ^ (105 - Nat.log 2 (x * mant)) := by
    simp only [f64MulTrunc, hx0, if_false, hL1, if_true, hL3]
  set L := Nat.log 2 (x * mant) with hLdef
  have hde : 2 ^ (L - 52) * 2 ^ (105 - L) = 2 ^ 53 := by
    rw [← pow_add]
    congr 1
    omega
  have hkb := roundHalfEven_bounds (x * mant) (2 ^ (L - 52))
  have hepos : 0 < 2 ^ (105 - L) := by positivity
  constructor
  · calc x * mant / 2 ^ 53
        = x * mant / 2 ^ (L - 52) / 2 ^ (105 - L) := by
          rw [Nat.div_div_eq_div_mul, hde]
      _ ≤ roundHalfEven (x * mant) (2 ^ (L - 52)) / 2 ^ (105 - L) :=
          Nat.div_le_div_right hkb.1
      _ = f64MulTrunc mant x := hres.symm
  · calc f64MulTrunc mant x
        = roundHalfEven (x * mant) (2 ^ (L - 52)) / 2 ^ (105 - L) := hres
      _ ≤ (x * mant / 2 ^ (L - 52) + 1) / 2 ^ (105 - L) :=
          Nat.div_le_div_right hkb.2
      _ ≤ (x * mant / 2 ^ (L - 52) + 2 ^ (105 - L)) / 2 ^ (105 - L) :=
          Nat.div_le_div_right (by omega)
      _ = x * mant / 2 ^ (L - 52) / 2 ^ (105 - L) + 1 :=
          Nat.add_div_right _ hepos
      _ = x * mant / 2 ^ 53 + 1 := by rw [Nat.div_div_eq_div_mul, hde]

/-- `⌊x * 0.7⌋`, computed with the binary64 value of `0.7`, is the exact
`⌊7x/10⌋` or one below it. -/
theorem ratio07_div (x : Nat) (hx : x ≤ 2 ^ 50) :
    x * mant07 / 2 ^ 53 ≤ 7 * x / 10 ∧ 7 * x / 10 ≤ x * mant07 / 2 ^ 53 + 1 := by
  have h1 := Nat.div_add_mod (x * mant07) (2 ^ 53)
  have h2 := Nat.mod_lt (x * mant07) (y := 2 ^ 53) (by norm_num)
  have h3 := Nat.div_add_mod (7 * x) 10
  have h4 := Nat.mod_lt (7 * x) (y := 10) (by norm_num)
  unfold mant07 at *
  omega

/-- The `0.6` analogue of `ratio07_div`. -/
theorem ratio06_div (x : Nat) (hx : x ≤ 2 ^ 50) :
    x * mant06 / 2 ^ 53 ≤ 6 * x / 10 ∧ 6 * x / 10 ≤ x * mant06 / 2 ^ 53 + 1 := by
  have h1 := Nat.div_add_mod (x * mant06) (2 ^ 53)
  have h2 := Nat.mod_lt (x * mant06) (y := 2 ^ 53) (by norm_num)
  have h3 := Nat.div_add_mod (6 * x) 10
  have h4 := Nat.mod_lt (6 * x) (y := 10) (by norm_num)
  unfold mant06 at *
  omega

/-- A 90-byte string of `'a'`s. -/
def str90 : String := String.mk (List.replicate 90 'a')

/-- C8 counterexample: on a 90-byte input the gzip field is 62, but the fixed
ratio `0.70` of the raw size is exactly 63 — the returned figures are the
truncated binary64 products, not the exact fixed ratios. -/
theorem C8_not_exact_ratio :
    calculate_json_size str90 = Except.ok ⟨90, 62, 54⟩ ∧
      ((62 : ℚ) ≠ 70 / 100 * 90) := by
  have hr : rustByteLen str90 = 90 := by decide
  have hL7 : Nat.log 2 (90 * mant07) = 58 :=
    Nat.log_eq_of_pow_le_of_lt_pow (by norm_num [mant07]) (by norm_num [mant07])
  have hL6 : Nat.log 2 (90 * mant06) = 58 :=
    Nat.log_eq_of_pow_le_of_lt_pow (by norm_num [mant06]) (by norm_num [mant06])
  have hg : f64MulTrunc mant07 90 = 62 := by
    unfold f64MulTrunc
    rw [if_neg (by norm_num)]
    simp only [hL7]
    norm_num [roundHalfEven, mant07]
  have hb : f64MulTrunc mant06 90 = 54 := by
    unfold f64MulTrunc
    rw [if_neg (by norm_num)]
    simp only [hL6]
    norm_num [roundHalfEven, mant06]
  refine ⟨?_, by norm_num⟩
  unfold calculate_json_size
  rw [hr, hg, hb]

/-- C8 amended: `raw` is the exact byte length; the gzip and brotli fields
are the binary64 products `raw * 0.7` and `raw * 0.6` truncated to integer,
hence within one of the exact `⌊0.7 raw⌋` and `⌊0.6 raw⌋` (approximate
fixed-ratio estimates rather than the exact ratios); on the empty string the
result is `{raw 0, gzip 0, brotli 0}`. -/
theorem C8_size_estimates (content : String) (h : rustByteLen content ≤ 2 ^ 50) :
    ∃ info : SizeInfo, calculate_json_size content = Except.ok info ∧
      info.raw = rustByteLen content ∧
      7 * info.raw / 10 ≤ info.gzip + 1 ∧ info.gzip ≤ 7 * info.raw / 10 + 1 ∧
      6 * info.raw / 10 ≤ info.brotli + 1 ∧ info.brotli ≤ 6 * info.raw / 10 + 1 ∧
      (content = "" → info = ⟨0, 0, 0⟩) := by
  refine ⟨⟨rustByteLen content, f64MulTrunc mant07 (rustByteLen content),
    f64MulTrunc mant06 (rustByteLen content)⟩, rfl, rfl, ?_⟩
  dsimp only
  by_cases hz : rustByteLen content = 0
  · have h0 : ∀ m : Nat, f64MulTrunc m 0 = 0 := fun _ => rfl
    refine ⟨?_, ?_, ?_, ?_, fun hc => ?_⟩ <;> simp [hz, h0]
  · have hx1 : 1 ≤ rustByteLen content := by omega
    have hb7 := f64MulTrunc_bounds mant07 (rustByteLen content) (by norm_num [mant07])
      (by norm_num [mant07]) hx1 h
    have hb6 := f64MulTrunc_bounds mant06 (rustByteLen content) (by norm_num [mant06])
      (by norm_num [mant06]) hx1 h
    have hr7 := ratio07_div (rustByteLen content) h
    have hr6 := ratio06_div (rustByteLen content) h
    refine ⟨by omega, by omega, by omega, by omega, fun hc => ?_⟩
    rw [hc] at hz
    exact absurd rfl hz

/-- C8 witness: the amended theorem at a concrete three-byte input. -/
theorem C8_size_estimates_witness :
    rustByteLen "abc" ≤ 2 ^ 50 ∧
      (∃ info : SizeInfo, calculate_json_size "abc" = Except.ok info ∧
        info.raw = rustByteLen "abc" ∧
        7 * info.raw / 10 ≤ info.gzip + 1 ∧ info.gzip ≤ 7 * info.raw / 10 + 1 ∧
        6 * info.raw / 10 ≤ info.brotli + 1 ∧ info.brotli ≤ 6 * info.raw / 10 + 1 ∧
        ("abc" = "" → info = ⟨0, 0, 0⟩)) :=
  ⟨by decide, C8_size_estimates "abc" (by decide)⟩

/-! ## JSON values, parsing and serialization (`format_json`, `compress_json`;
main.rs lines 336-375)

Modelled from the spec: the JSON library behind `format_json` and
`compress_json` (serde_json) is not part of this repository; the value type,
parser and serializers below follow the spec's contracts — `validate/parse` a
document, `format` "re-serializes with canonical structure at the requested
indent width" (two-space pretty printing), `compress` is the "canonical
minimal serialization" — using serde_json's concrete JSON syntax (whitespace,
string escapes including `\uXXXX` with surrogate pairs, no trailing commas,
no leading zeros, last-value-wins object keys kept at their first position).
Two deliberate restrictions, each only narrowing the set of documents the
conditional theorems quantify over: number literals with a fraction part, an
exponent part, or a negative zero are rejected rather than parsed to binary64
values (floating point is outside the embedding), and integers are unbounded. -/

inductive Json where
  | null
  | bool (b : Bool)
  | num (n : Int)
  | str (s : String)
  | arr (elems : List Json)
  | obj (members : List (String × Json))

/-- Lowercase hex digit, as serde_json's escape table writes them. -/
def toHexDigitChar (n : Nat) : Char :=
  Char.ofNat (if n < 10 then n + 48 else n + 87)

/-- One string character, JSON-escaped: quote and backslash get a backslash,
the named control escapes are used when available, any other control
character becomes `\u00XX`, and everything else is passed through. -/
def escapeChar (c : Char) : List Char :=
  if c = '"' then ['\\', '"']
  else if c = '\\' then ['\\', '\\']
  else if c.toNat = 8 then ['\\', 'b']
  else if c.toNat = 9 then ['\\', 't']
  else if c.toNat = 10 then ['\\', 'n']
  else if c.toNat = 12 then ['\\', 'f']
  else if c.toNat = 13 then ['\\', 'r']
  else if c.toNat < 0x20 then
    ['\\', 'u', '0', '0', toHexDigitChar (c.toNat / 16), toHexDigitChar (c.toNat % 16)]
  else [c]

/-- A string literal: quote, escaped characters, quote. -/
def renderStr (s : String) : List Char :=
  '"' :: (s.data.flatMap escapeChar ++ ['"'])

/-- Decimal digits, fuel-indexed so that the definition is structural (and
therefore kernel-computable); any `fuel > n` gives the digits of `n`. -/
def natDigitsF : Nat → Nat → List Char → List Char
  | 0, _, acc => acc
  | fuel + 1, n, acc =>
    if n < 10 then Char.ofNat ('0'.toNat + n % 10) :: acc
    else natDigitsF fuel (n / 10) (Char.ofNat ('0'.toNat + n % 10) :: acc)

/-- Decimal digits of `n`, most significant first, prepended to `acc`. -/
def natDigits (n : Nat) (acc : List Char) : List Char := natDigitsF (n + 1) n acc

/-- An integer in canonical decimal: optional minus sign, then digits. -/
def renderInt (i : Int) : List Char :=
  if i < 0 then '-' :: natDigits i.natAbs [] else natDigits i.natAbs []

mutual
/-- Compact serialization (serde_json `to_string`): no whitespace anywhere. -/
def render : Json → List Char
  | .num i => renderInt i
  | .null => ['n', 'u', 'l', 'l']
  | .str s => renderStr s
  | .bool true => ['t', 'r', 'u', 'e']
  | .arr es => '[' :: (renderElems es ++ [']'])
  | .bool false => ['f', 'a', 'l', 's', 'e']
  | .obj ms => '{' :: (renderMembers ms ++ ['}'])
def renderElems : List Json → List Char
  | [] => []
  | e :: es => render e ++ renderSepElems es
def renderSepElems : List Json → List Char
  | [] => []
  | e :: es => ',' :: (render e ++ renderSepElems es)
def renderMembers : List (String × Json) → List Char
  | [] => []
  | (k, v) :: ms => renderStr k ++ ':' :: (render v ++ renderSepMembers ms)
def renderSepMembers : List (String × Json) → List Char
  | [] => []
  | (k, v) :: ms => ',' :: (renderStr k ++ ':' :: (render v ++ renderSepMembers ms))
end

/-- Two spaces per nesting level (serde_json's `PrettyFormatter` default). -/
def indentChars (level : Nat) : List Char := List.replicate (2 * level) ' '

mutual
/-- Pretty serialization (serde_json `to_string_pretty`): scalars as in the
compact form; non-empty arrays and objects put every item on its own line,
indented two spaces per level, keys separated from values by `": "`. -/
def renderP : Nat → Json → List Char
  | _, .null => ['n', 'u', 'l', 'l']
  | _, .bool true => ['t', 'r', 'u', 'e']
  | _, .bool false => ['f', 'a', 'l', 's', 'e']
  | _, .num i => renderInt i
  | _, .str s => renderStr s
  | _, .arr [] => ['[', ']']
  | lvl, .arr (e :: es) =>
    '[' :: '\n' :: (indentChars (lvl + 1) ++ renderP (lvl + 1) e ++
      renderPSepElems (lvl + 1) es ++ '\n' :: (indentChars lvl ++ [']']))
  | _, .obj [] => ['{', '}']
  | lvl, .obj ((k, v) :: ms) =>
    '{' :: '\n' :: (indentChars (lvl + 1) ++ renderStr k ++ ':' :: ' ' ::
      (renderP (lvl + 1) v ++ renderPSepMembers (lvl + 1) ms) ++
      '\n' :: (indentChars lvl ++ ['}']))
def renderPSepElems : Nat → List Json → List Char
  | _, [] => []
  | lvl, e :: es =>
    ',' :: '\n' :: (indentChars lvl ++ renderP lvl e ++ renderPSepElems lvl es)
def renderPSepMembers : Nat → List (String × Json) → List Char
  | _, [] => []
  | lvl, (k, v) :: ms =>
    ',' :: '\n' :: (indentChars lvl ++ renderStr k ++ ':' :: ' ' ::
      (renderP lvl v ++ renderPSepMembers lvl ms))
end

/-- JSON insignificant whitespace. -/
def isJsonWs (c : Char) : Bool := c = ' ' || c = '\t' || c = '\n' || c = '\r'

def skipWs : List Char → List Char
  | c :: cs => if isJsonWs c then skipWs cs else c :: cs
  | [] => []

def isDigitCh (c : Char) : Bool := '0' ≤ c && c ≤ '9'

def takeDigits : List Char → List Char × List Char
  | [] => ([], [])
  | c :: cs =>
    if isDigitCh c then
      match takeDigits cs with
      | (ds, r) => (c :: ds, r)
    else ([], c :: cs)

def digitsToNat (ds : List Char) : Nat :=
  ds.foldl (fun acc c => acc * 10 + (c.toNat - '0'.toNat)) 0

/-- The value of one hex digit; both letter cases are accepted. -/
def hexValue (c : Char) : Option Nat :=
  let n := c.toNat
  if 48 ≤ n ∧ n ≤ 57 then some (n - 48)
  else if 97 ≤ n ∧ n ≤ 102 then some (n - 87)
  else if 65 ≤ n ∧ n ≤ 70 then some (n - 55)
  else none

/-- The code unit named by four hex digits. -/
def hex4 (a b c d : Char) : Option Nat :=
  match hexValue a, hexValue b, hexValue c, hexValue d with
  | some va, some vb, some vc, some vd => some (va * 4096 + vb * 256 + vc * 16 + vd)
  | _, _, _, _ => none

/-- The single-character escapes JSON accepts after a backslash. -/
def unescapeChar : Char → Option Char
  | 'n' => some '\n'
  | 't' => some '\t'
  | 'r' => some '\r'
  | 'b' => some (Char.ofNat 8)
  | 'f' => some (Char.ofNat 12)
  | '"' => some '"'
  | '\\' => some '\\'
  | '/' => some '/'
  | _ => none

/-- Parse the body of a string literal after the opening quote: raw characters
must not be control characters; `\uXXXX` escapes decode code units, pairing a
high surrogate with a following low surrogate and rejecting lone surrogates. -/
def parseStrBody : List Char → Option (List Char × List Char)
  | [] => none
  | '"' :: rest => some ([], rest)
  | '\\' :: 'u' :: a :: b :: c :: d :: rest =>
    (match hex4 a b c d with
     | none => none
     | some n =>
       if 0xD800 ≤ n ∧ n ≤ 0xDBFF then
         match rest with
         | '\\' :: 'u' :: a2 :: b2 :: c2 :: d2 :: rest2 =>
           (match hex4 a2 b2 c2 d2 with
            | none => none
            | some n2 =>
              if 0xDC00 ≤ n2 ∧ n2 ≤ 0xDFFF then
                match parseStrBody rest2 with
                | some (s, r) =>
                  some (Char.ofNat (0x10000 + (n - 0xD800) * 0x400 + (n2 - 0xDC00)) :: s, r)
                | none => none
              else none)
         | _ => none
       else if 0xDC00 ≤ n ∧ n ≤ 0xDFFF then none
       else
         match parseStrBody rest with
         | some (s, r) => some (Char.ofNat n :: s, r)
         | none => none)
  | '\\' :: e :: rest =>
    (match unescapeChar e with
     | some ch =>
       match parseStrBody rest with
       | some (s, r) => some (ch :: s, r)
       | none => none
     | none => none)
  | c :: rest =>
    if c.toNat < 0x20 then none
    else
      match parseStrBody rest with
      | some (s, r) => some (c :: s, r)
      | none => none

/-- Does a fraction or exponent part follow (which would make the literal a
float)? -/
def floatFollows : List Char → Bool
  | c :: _ => c = '.' || c = 'e' || c = 'E'
  | [] => false

/-- Parse an integer literal: optional sign, digits without a leading zero
(`-0` and float forms are rejected; see the section comment). -/
def parseNum (cs : List Char) : Option (Int × List Char) :=
  match cs with
  | '-' :: rest =>
    (match takeDigits rest with
     | ([], _) => none
     | (d :: ds, r) =>
       if d = '0' then none
       else if floatFollows r then none
       else some (-(digitsToNat (d :: ds) : Int), r))
  | _ =>
    (match takeDigits cs with
     | ([], _) => none
     | (d :: ds, r) =>
       if d = '0' ∧ ds ≠ [] then none
       else if floatFollows r then none
       else some ((digitsToNat (d :: ds) : Int), r))

/-- Insert-or-replace at the original position (serde_json's map `insert`). -/
def insertKV : List (String × Json) → String → Json → List (String × Json)
  | [], k, v => [(k, v)]
  | (k2, v2) :: ms, k, v =>
    if k2 = k then (k2, v) :: ms else (k2, v2) :: insertKV ms k v

/-- Build an object map from the raw member list, later values overwriting
earlier ones at their original position. -/
def buildObj (pairs : List (String × Json)) : List (String × Json) :=
  pairs.foldl (fun acc kv => insertKV acc kv.1 kv.2) []

mutual
/-- Parse one JSON value.  `fuel` is an artifact of the embedding: it falls by
one at each mutual call, and `input length + 1` is always enough (the
round-trip theorems below prove this bound for serialized values). -/
def parseVal (fuel : Nat) (cs : List Char) : Option (Json × List Char) :=
  match fuel with
  | 0 => none
  | fuel + 1 =>
    match skipWs cs with
    | 'n' :: 'u' :: 'l' :: 'l' :: r => some (.null, r)
    | 't' :: 'r' :: 'u' :: 'e' :: r => some (.bool true, r)
    | 'f' :: 'a' :: 'l' :: 's' :: 'e' :: r => some (.bool false, r)
    | '"' :: r =>
      (match parseStrBody r with
       | some (content, r2) => some (.str (String.mk content), r2)
       | none => none)
    | '[' :: r =>
      (match skipWs r with
       | [] => none
       | c :: r2 =>
         if c = ']' then some (.arr [], r2)
         else
           match parseElems fuel (c :: r2) with
           | some (es, r3) => some (.arr es, r3)
           | none => none)
    | '{' :: r =>
      (match skipWs r with
       | [] => none
       | c :: r2 =>
         if c = '}' then some (.obj [], r2)
         else
           match parseMembers fuel (c :: r2) with
           | some (pairs, r3) => some (.obj (buildObj pairs), r3)
           | none => none)
    | c :: r =>
      if c = '-' || isDigitCh c then
        match parseNum (c :: r) with
        | some (i, r2) => some (.num i, r2)
        | none => none
      else none
    | [] => none
/-- Parse one or more comma-separated array elements up to the closing `]`. -/
def parseElems (fuel : Nat) (cs : List Char) : Option (List Json × List Char) :=
  match fuel with
  | 0 => none
  | fuel + 1 =>
    match parseVal fuel cs with
    | none => none
    | some (v, r) =>
      match skipWs r with
      | ',' :: r2 =>
        (match parseElems fuel r2 with
         | some (vs, r3) => some (v :: vs, r3)
         | none => none)
      | ']' :: r2 => some ([v], r2)
      | _ => none
/-- Parse one or more comma-separated object members up to the closing `}`. -/
def parseMembers (fuel : Nat) (cs : List Char) :
    Option (List (String × Json) × List Char) :=
  match fuel with
  | 0 => none
  | fuel + 1 =>
    match skipWs cs with
    | '"' :: r =>
      (match parseStrBody r with
       | none => none
       | some (key, r1) =>
         match skipWs r1 with
         | ':' :: r2 =>
           (match parseVal fuel r2 with
            | none => none
            | some (v, r3) =>
              match skipWs r3 with
              | ',' :: r4 =>
                (match parseMembers fuel r4 with
                 | some (ms, r5) => some ((String.mk key, v) :: ms, r5)
                 | none => none)
              | '}' :: r4 => some ([(String.mk key, v)], r4)
              | _ => none)
         | _ => none)
    | _ => none
end

/-- Parse a complete document: one value, then only trailing whitespace. -/
def parseJson (s : String) : Option Json :=
  match parseVal (s.data.length + 1) s.data with
  | some (v, r) => if (skipWs r).isEmpty then some v else none
  | none => none

/-- `format_json` (main.rs lines 337-364): parse, pretty-print at two spaces;
for a requested indent other than two, every line's leading-whitespace run is
replaced by `indent` spaces per two existing ones (the source's re-scaling
quirk; `str::lines` agrees with splitting on `'\n'` here because the pretty
output has no trailing newline and no `'\r'`).  Parse failures surface as
errors (the source's message carries the parser's description). -/
def format_json (content : String) (indent : Option Nat) : Except String String :=
  match parseJson content with
  | none => Except.error "Invalid JSON"
  | some v =>
    let indentSize := indent.getD 2
    let formatted := String.mk (renderP 0 v)
    if indentSize ≠ 2 then
      Except.ok (String.mk (List.intercalate ['\n']
        ((splitOnChar '\n' formatted.data).map (fun line =>
          List.replicate (indentSize * ((line.takeWhile isJsonWs).length / 2)) ' ' ++
            line.dropWhile isJsonWs))))
    else Except.ok formatted

/-- `compress_json` (main.rs lines 366-375): parse, then the compact
serialization. -/
def compress_json (content : String) : Except String String :=
  match parseJson content with
  | none => Except.error "Invalid JSON"
  | some v => Except.ok (String.mk (render v))

/-! ### Digit rendering inverts digit parsing -/

theorem natDigitsF_irrel :
    ∀ (f1 f2 n : Nat) (acc : List Char), n < f1 → n < f2 →
      natDigitsF f1 n acc = natDigitsF f2 n acc
  | 0, _, _, _, h1, _ => absurd h1 (by omega)
  | _ + 1, 0, _, _, _, h2 => absurd h2 (by omega)
  | f1 + 1, f2 + 1, n, acc, h1, h2 => by
    simp only [natDigitsF]
    by_cases h : n < 10
    · simp [h]
    · simp only [h, if_false]
      exact natDigitsF_irrel f1 f2 (n / 10) _ (by omega) (by omega)

/-- The natural recursion equation for `natDigits`. -/
theorem natDigits_eq (n : Nat) (acc : List Char) :
    natDigits n acc =
      if n < 10 then Char.ofNat ('0'.toNat + n % 10) :: acc
      else natDigits (n / 10) (Char.ofNat ('0'.toNat + n % 10) :: acc) := by
  unfold natDigits
  simp only [natDigitsF]
  by_cases h : n < 10
  · simp [h]
  · simp only [h, if_false]
    exact natDigitsF_irrel n (n / 10 + 1) (n / 10) _ (by omega) (by omega)

theorem natDigits_append (n : Nat) : ∀ acc : List Char, natDigits n acc = natDigits n [] ++ acc := by
  induction n using Nat.strong_induction_on with
  | _ n ih =>
    intro acc
    rw [natDigits_eq n acc, natDigits_eq n []]
    by_cases h : n < 10
    · simp [h]
    · simp only [h, if_false]
      rw [ih (n / 10) (by omega), ih (n / 10) (by omega) [Char.ofNat ('0'.toNat + n % 10)]]
      simp

theorem digitChar_spec : ∀ m : Nat, m < 10 →
    isDigitCh (Char.ofNat ('0'.toNat + m)) = true ∧
      (Char.ofNat ('0'.toNat + m)).toNat = '0'.toNat + m ∧
      (m ≠ 0 → Char.ofNat ('0'.toNat + m) ≠ '0') := by
  decide

theorem natDigits_all_digits (n : Nat) : ∀ c ∈ natDigits n [], isDigitCh c = true := by
  induction n using Nat.strong_induction_on with
  | _ n ih =>
    intro c hc
    rw [natDigits_eq] at hc
    by_cases h : n < 10
    · simp only [h, if_true, List.mem_singleton] at hc
      subst hc
      exact (digitChar_spec (n % 10) (by omega)).1
    · simp only [h, if_false] at hc
      rw [natDigits_append] at hc
      rcases List.mem_append.mp hc with h2 | h2
      · exact ih (n / 10) (by omega) c h2
      · simp only [List.mem_singleton] at h2
        subst h2
        exact (digitChar_spec (n % 10) (by omega)).1

/-- The leading digit, with its properties: `natDigits` is never empty, starts
with a digit, and starts with `'0'` only for zero itself. -/
theorem natDigits_cons (n : Nat) :
    ∃ c t, natDigits n [] = c :: t ∧ isDigitCh c = true ∧ (n ≠ 0 → c ≠ '0') := by
  induction n using Nat.strong_induction_on with
  | _ n ih =>
    rw [natDigits_eq]
    by_cases h : n < 10
    · refine ⟨Char.ofNat ('0'.toNat + n % 10), [], by simp [h], ?_, ?_⟩
      · exact (digitChar_spec (n % 10) (by omega)).1
      · intro hn
        have := (digitChar_spec (n % 10) (by omega)).2.2 (by omega)
        simpa using this
    · obtain ⟨c, t, hcons, hdig, -⟩ := ih (n / 10) (by omega)
      refine ⟨c, t ++ [Char.ofNat ('0'.toNat + n % 10)], ?_, hdig, ?_⟩
      · simp only [h, if_false]
        rw [natDigits_append, hcons]
        simp
      · intro _
        obtain ⟨c2, t2, hcons2, hd2, hne2⟩ := ih (n / 10) (by omega)
        have hcc : c2 = c := by
          rw [hcons2] at hcons
          exact (List.cons.inj hcons).1
        exact hcc ▸ hne2 (by omega)

theorem foldl_digitsToNat_natDigits (n : Nat) :
    ∀ a : Nat,
      List.foldl (fun acc c => acc * 10 + (c.toNat - '0'.toNat)) a (natDigits n []) =
        a * 10 ^ (natDigits n []).length + n := by
  induction n using Nat.strong_induction_on with
  | _ n ih =>
    intro a
    rw [natDigits_eq]
    by_cases h : n < 10
    · simp only [h, if_true, List.foldl_cons, List.foldl_nil, List.length_singleton]
      rw [(digitChar_spec (n % 10) (by omega)).2.1]
      omega
    · simp only [h, if_false]
      rw [natDigits_append, List.foldl_append, List.length_append, ih (n / 10) (by omega) a]
      simp only [List.foldl_cons, List.foldl_nil, List.length_singleton]
      rw [(digitChar_spec (n % 10) (by omega)).2.1]
      have : '0'.toNat + n % 10 - '0'.toNat = n % 10 := by omega
      rw [this, pow_succ]
      have hn : (a * 10 ^ (natDigits (n / 10) []).length + n / 10) * 10 + n % 10 =
          a * (10 ^ (natDigits (n / 10) []).length * 10) + (n / 10 * 10 + n % 10) := by ring
      rw [hn]
      omega

theorem digitsToNat_natDigits (n : Nat) : digitsToNat (natDigits n []) = n := by
  unfold digitsToNat
  rw [foldl_digitsToNat_natDigits n 0]
  simp

/-- What may legally follow a serialized number: end of input, or a comma or
closing bracket (as the serializers emit). -/
def numDelim : List Char → Bool
  | [] => true
  | c :: _ => c = ',' || c = ']' || c = '}'

/-- The next character (if any) is not a digit. -/
def notDigitHead : List Char → Bool
  | [] => true
  | c :: _ => !isDigitCh c

theorem numDelim_props (rest : List Char) (h : numDelim rest = true) :
    floatFollows rest = false ∧ notDigitHead rest = true := by
  cases rest with
  | nil => exact ⟨rfl, rfl⟩
  | cons c t =>
    simp only [numDelim, Bool.or_eq_true, decide_eq_true_eq] at h
    rcases h with (h | h) | h <;> subst h <;> exact ⟨rfl, rfl⟩

theorem takeDigits_append (ds : List Char) (hds : ∀ c ∈ ds, isDigitCh c = true)
    (rest : List Char) (hr : notDigitHead rest = true) :
    takeDigits (ds ++ rest) = (ds, rest) := by
  induction ds with
  | nil =>
    cases rest with
    | nil => rfl
    | cons c t =>
      simp only [notDigitHead, Bool.not_eq_true'] at hr
      simp [takeDigits, hr]
  | cons d ds ih =>
    have hd : isDigitCh d = true := hds d (by simp)
    have ih2 := ih (fun c hc => hds c (by simp [hc]))
    simp only [List.cons_append, takeDigits, hd, if_true, List.append_eq, ih2]

theorem digit_ne_minus {c : Char} (h : isDigitCh c = true) : ¬c = '-' := by
  intro hc
  subst hc
  exact absurd h (by decide)

/-- `parseNum` inverts `renderInt` when followed by a delimiter. -/
theorem parseNum_renderInt (i : Int) (rest : List Char) (hr : numDelim rest = true) :
    parseNum (renderInt i ++ rest) = some (i, rest) := by
  obtain ⟨hff, hnd⟩ := numDelim_props rest hr
  have htake : takeDigits (natDigits i.natAbs [] ++ rest) = (natDigits i.natAbs [], rest) :=
    takeDigits_append _ (natDigits_all_digits i.natAbs) rest hnd
  obtain ⟨c, t, hcons, hdig, hzero⟩ := natDigits_cons i.natAbs
  by_cases hneg : i < 0
  · have habs : i.natAbs ≠ 0 := by omega
    have hneq : -(i.natAbs : Int) = i := by omega
    have harg : renderInt i ++ rest = '-' :: (natDigits i.natAbs [] ++ rest) := by
      simp [renderInt, hneg]
    rw [harg]
    simp only [parseNum]
    rw [htake, hcons]
    simp [hzero habs, hff, ← hcons, digitsToNat_natDigits, hneq, abs_of_neg hneg, neg_neg]
  · have harg : renderInt i ++ rest = natDigits i.natAbs [] ++ rest := by
      simp [renderInt, hneg]
    rw [harg, hcons, List.cons_append]
    have hcm := digit_ne_minus hdig
    rw [show parseNum (c :: (t ++ rest)) =
        (match takeDigits (c :: (t ++ rest)) with
         | ([], _) => none
         | (d :: ds, r) =>
           if d = '0' ∧ ds ≠ [] then none
           else if floatFollows r then none
           else some ((digitsToNat (d :: ds) : Int), r)) from by
      unfold parseNum
      split
      · rename_i heq
        exact absurd (List.cons.inj heq).1.symm (Ne.symm hcm)
      · rfl]
    rw [← List.cons_append, ← hcons, htake, hcons]
    by_cases hz : i.natAbs = 0
    · have h00 : natDigits (0 : Nat) [] = ['0'] := rfl
      rw [hz, h00] at hcons
      have hc : c = '0' := (List.cons.inj hcons).1.symm
      have ht : t = [] := (List.cons.inj hcons).2.symm
      subst hc
      subst ht
      have hd0 : digitsToNat ['0'] = 0 := rfl
      have hi : i = 0 := by omega
      simp [hff, hd0, hi]
    · have hcast : (i.natAbs : Int) = i := by omega
      simp [hzero hz, hff, ← hcons, digitsToNat_natDigits, hcast]

/-! ### String escaping inverts string parsing -/

theorem hexValue_toHexDigitChar : ∀ d : Nat, d < 16 → hexValue (toHexDigitChar d) = some d := by
  decide

theorem hex4_00 (t : Nat) (h : t < 32) :
    hex4 '0' '0' (toHexDigitChar (t / 16)) (toHexDigitChar (t % 16)) = some t := by
  have h1 := hexValue_toHexDigitChar (t / 16) (by omega)
  have h2 := hexValue_toHexDigitChar (t % 16) (by omega)
  have h0 : hexValue '0' = some 0 := rfl
  simp only [hex4, h0, h1, h2, Option.some.injEq]
  omega

theorem parseStrBody_render (s : List Char) (rest : List Char) :
    parseStrBody (s.flatMap escapeChar ++ ('"' :: rest)) = some (s, rest) := by
  induction s with
  | nil => rfl
  | cons c s ih =>
    rw [List.flatMap_cons, List.append_assoc]
    by_cases hq : c = '"'
    · subst hq
      simp [escapeChar, parseStrBody, unescapeChar, ih]
    by_cases hbs : c = '\\'
    · subst hbs
      simp [escapeChar, parseStrBody, unescapeChar, ih]
    by_cases h8 : c.toNat = 8
    · have hc : Char.ofNat 8 = c := by rw [← h8]; exact Char.ofNat_toNat c
      have he : escapeChar c = ['\\', 'b'] := by simp [escapeChar, hq, hbs, h8]
      rw [he]
      simp [parseStrBody, unescapeChar, ih]
      exact hc
    by_cases h9 : c.toNat = 9
    · have hc : Char.ofNat 9 = c := by rw [← h9]; exact Char.ofNat_toNat c
      have he : escapeChar c = ['\\', 't'] := by simp [escapeChar, hq, hbs, h8, h9]
      rw [he]
      have ht : ('\t' : Char) = c := by
        rw [show ('\t' : Char) = Char.ofNat 9 from rfl]
        exact hc
      simp [parseStrBody, unescapeChar, ih]
      exact ht
    by_cases h10 : c.toNat = 10
    · have hc : Char.ofNat 10 = c := by rw [← h10]; exact Char.ofNat_toNat c
      have he : escapeChar c = ['\\', 'n'] := by simp [escapeChar, hq, hbs, h8, h9, h10]
      rw [he]
      have hn : ('\n' : Char) = c := by
        rw [show ('\n' : Char) = Char.ofNat 10 from rfl]
        exact hc
      simp [parseStrBody, unescapeChar, ih]
      exact hn
    by_cases h12 : c.toNat = 12
    · have hc : Char.ofNat 12 = c := by rw [← h12]; exact Char.ofNat_toNat c
      have he : escapeChar c = ['\\', 'f'] := by simp [escapeChar, hq, hbs, h8, h9, h10, h12]
      rw [he]
      simp [parseStrBody, unescapeChar, ih]
      exact hc
    by_cases h13 : c.toNat = 13
    · have hc : Char.ofNat 13 = c := by rw [← h13]; exact Char.ofNat_toNat c
      have he : escapeChar c = ['\\', 'r'] := by
        simp [escapeChar, hq, hbs, h8, h9, h10, h12, h13]
      rw [he]
      have hr : ('\x0d' : Char) = c := by
        rw [show ('\x0d' : Char) = Char.ofNat 13 from rfl]
        exact hc
      simp [parseStrBody, unescapeChar, ih]
      exact hr
    by_cases hctl : c.toNat < 0x20
    · have he : escapeChar c =
          ['\\', 'u', '0', '0', toHexDigitChar (c.toNat / 16), toHexDigitChar (c.toNat % 16)] := by
        simp [escapeChar, hq, hbs, h8, h9, h10, h12, h13, hctl]
      rw [he]
      have hhex := hex4_00 c.toNat (by omega)
      have hs1 : ¬(0xD800 ≤ c.toNat ∧ c.toNat ≤ 0xDBFF) := by omega
      have hs2 : ¬(0xDC00 ≤ c.toNat ∧ c.toNat ≤ 0xDFFF) := by omega
      simp [parseStrBody, hhex, hs1, hs2, ih, Char.ofNat_toNat]
    · have he : escapeChar c = [c] := by
        simp [escapeChar, hq, hbs, h8, h9, h10, h12, h13, hctl]
      rw [he]
      simp [parseStrBody, hq, hbs, hctl, ih]

/-! ### Well-formed values and object maps -/

/-- No key occurs twice. -/
def keysNodup : List (String × Json) → Bool
  | [] => true
  | (k, _) :: ms => !(ms.any (fun kv => kv.1 == k)) && keysNodup ms

mutual
/-- Values the parser can produce: every object has pairwise-distinct keys. -/
def wfVal : Json → Bool
  | .null => true
  | .bool _ => true
  | .num _ => true
  | .str _ => true
  | .arr es => wfElems es
  | .obj ms => keysNodup ms && wfMembers ms
def wfElems : List Json → Bool
  | [] => true
  | e :: es => wfVal e && wfElems es
def wfMembers : List (String × Json) → Bool
  | [] => true
  | (_, v) :: ms => wfVal v && wfMembers ms
end

theorem insertKV_any (ms : List (String × Json)) (k : String) (v : Json) (k2 : String) :
    (insertKV ms k v).any (fun kv => kv.1 == k2) =
      (ms.any (fun kv => kv.1 == k2) || (k == k2)) := by
  induction ms with
  | nil => simp [insertKV]
  | cons m ms ih =>
    obtain ⟨mk, mv⟩ := m
    by_cases h : mk = k
    · subst h
      simp only [insertKV, if_true, List.any_cons]
      by_cases h2 : mk = k2 <;> simp [h2]
    · simp only [insertKV, h, if_false, List.any_cons, ih]
      by_cases h2 : mk = k2 <;> simp [h2, Bool.or_assoc]

theorem insertKV_keysNodup (ms : List (String × Json)) (k : String) (v : Json)
    (h : keysNodup ms = true) : keysNodup (insertKV ms k v) = true := by
  induction ms with
  | nil => simp [insertKV, keysNodup]
  | cons m ms ih =>
    obtain ⟨mk, mv⟩ := m
    simp only [keysNodup, Bool.and_eq_true, Bool.not_eq_true'] at h
    by_cases hk : mk = k
    · subst hk
      simp only [insertKV, if_true, keysNodup, Bool.and_eq_true, Bool.not_eq_true']
      exact h
    · simp only [insertKV, hk, if_false, keysNodup, Bool.and_eq_true, Bool.not_eq_true',
        insertKV_any, ih h.2, and_true]
      simp only [h.1, Bool.false_or]
      simp [Ne.symm hk]

theorem insertKV_wfMembers (ms : List (String × Json)) (k : String) (v : Json)
    (hms : wfMembers ms = true) (hv : wfVal v = true) :
    wfMembers (insertKV ms k v) = true := by
  induction ms with
  | nil => simp [insertKV, wfMembers, hv]
  | cons m ms ih =>
    obtain ⟨mk, mv⟩ := m
    simp only [wfMembers, Bool.and_eq_true] at hms
    by_cases hk : mk = k
    · subst hk
      simp [insertKV, wfMembers, hv, hms.2]
    · simp [insertKV, hk, wfMembers, hms.1, ih hms.2]

/-- Folding `insertKV` over well-formed raw pairs produces a well-formed map. -/
theorem buildObj_aux_wf (pairs : List (String × Json)) :
    ∀ acc : List (String × Json), keysNodup acc = true → wfMembers acc = true →
      wfMembers pairs = true →
      keysNodup (pairs.foldl (fun a kv => insertKV a kv.1 kv.2) acc) = true ∧
        wfMembers (pairs.foldl (fun a kv => insertKV a kv.1 kv.2) acc) = true := by
  induction pairs with
  | nil => exact fun acc h1 h2 _ => ⟨h1, h2⟩
  | cons p pairs ih =>
    intro acc h1 h2 hp
    obtain ⟨pk, pv⟩ := p
    simp only [wfMembers, Bool.and_eq_true] at hp
    exact ih (insertKV acc pk pv) (insertKV_keysNodup acc pk pv h1)
      (insertKV_wfMembers acc pk pv h2 hp.1) hp.2

theorem buildObj_wf (pairs : List (String × Json)) (hp : wfMembers pairs = true) :
    keysNodup (buildObj pairs) = true ∧ wfMembers (buildObj pairs) = true :=
  buildObj_aux_wf pairs [] rfl rfl hp

theorem insertKV_fresh (acc : List (String × Json)) (k : String) (v : Json)
    (h : acc.any (fun kv => kv.1 == k) = false) :
    insertKV acc k v = acc ++ [(k, v)] := by
  induction acc with
  | nil => rfl
  | cons m acc ih =>
    obtain ⟨mk, mv⟩ := m
    simp only [List.any_cons, Bool.or_eq_false_iff, beq_eq_false_iff_ne, ne_eq] at h
    simp only [insertKV, h.1, if_false, List.cons_append]
    rw [ih h.2]

/-- On a duplicate-free member list the rebuild is the identity. -/
theorem buildObj_nodup_id (ms : List (String × Json)) (h : keysNodup ms = true) :
    buildObj ms = ms := by
  have main : ∀ (ms acc : List (String × Json)),
      keysNodup ms = true →
      (∀ kv ∈ ms, acc.any (fun kv2 => kv2.1 == kv.1) = false) →
      ms.foldl (fun a kv => insertKV a kv.1 kv.2) acc = acc ++ ms := by
    intro ms
    induction ms with
    | nil => simp
    | cons m ms ih =>
      intro acc hnd hfresh
      obtain ⟨mk, mv⟩ := m
      simp only [keysNodup, Bool.and_eq_true, Bool.not_eq_true'] at hnd
      simp only [List.foldl_cons]
      rw [insertKV_fresh acc mk mv (hfresh (mk, mv) (by simp))]
      rw [ih (acc ++ [(mk, mv)]) hnd.2]
      · simp
      · intro kv hkv
        have hacc : acc.any (fun kv2 => kv2.1 == kv.1) = false := hfresh kv (by simp [hkv])
        have hmk : (mk == kv.1) = false := by
          have h3 : ms.any (fun kv2 => kv2.1 == mk) = false := hnd.1
          rw [List.any_eq_false] at h3
          have h4 := h3 kv hkv
          simp only [beq_iff_eq] at h4
          simp only [beq_eq_false_iff_ne, ne_eq]
          exact fun he => h4 he.symm
        simp [List.any_append, hacc, hmk]
  exact main ms [] h (by simp)

/-! ### Rendered output: head characters and whitespace -/

theorem renderSepElems_cons (e : Json) (es : List Json) :
    renderSepElems (e :: es) = ',' :: renderElems (e :: es) := rfl

theorem renderSepMembers_cons (k : String) (v : Json) (ms : List (String × Json)) :
    renderSepMembers ((k, v) :: ms) = ',' :: renderMembers ((k, v) :: ms) := rfl

theorem digit_head_props {c : Char} (h : isDigitCh c = true) :
    isJsonWs c = false ∧ c ≠ ']' ∧ c ≠ '}' ∧ c ≠ '[' ∧ c ≠ '{' ∧ c ≠ '"' ∧
      c ≠ 'n' ∧ c ≠ 't' ∧ c ≠ 'f' := by
  have hws : isJsonWs c = false := by
    simp only [isJsonWs, Bool.or_eq_false_iff, decide_eq_false_iff_not]
    refine ⟨⟨⟨?_, ?_⟩, ?_⟩, ?_⟩ <;> (rintro rfl; revert h; decide)
  refine ⟨hws, ?_, ?_, ?_, ?_, ?_, ?_, ?_, ?_⟩ <;> (rintro rfl; revert h; decide)

/-- Every rendered value starts with a non-whitespace character that is not a
closing bracket. -/
theorem render_head (v : Json) :
    ∃ c t, render v = c :: t ∧ isJsonWs c = false ∧ c ≠ ']' ∧ c ≠ '}' := by
  cases v with
  | num i =>
    obtain ⟨c, t, hcons, hdig, -⟩ := natDigits_cons i.natAbs
    by_cases hneg : i < 0
    · refine ⟨'-', natDigits i.natAbs [], ?_, ?_, ?_, ?_⟩
      · simp [render, renderInt, hneg]
      all_goals decide
    · obtain ⟨hws, hrb, hcb, -⟩ := digit_head_props hdig
      refine ⟨c, t, ?_, hws, hrb, hcb⟩
      simp [render, renderInt, hneg, hcons]
  | bool b => cases b <;> (refine ⟨_, _, rfl, ?_, ?_, ?_⟩ <;> decide)
  | null => refine ⟨_, _, rfl, ?_, ?_, ?_⟩ <;> decide
  | str s => refine ⟨_, _, rfl, ?_, ?_, ?_⟩ <;> decide
  | arr es => refine ⟨_, _, rfl, ?_, ?_, ?_⟩ <;> decide
  | obj ms => refine ⟨_, _, rfl, ?_, ?_, ?_⟩ <;> decide

theorem render_ne_nil (v : Json) : render v ≠ [] := by
  obtain ⟨c, t, hcons, -⟩ := render_head v
  simp [hcons]

theorem skipWs_render (v : Json) (x : List Char) :
    skipWs (render v ++ x) = render v ++ x := by
  obtain ⟨c, t, hcons, hws, -⟩ := render_head v
  rw [hcons, List.cons_append]
  simp [skipWs, hws]

/-! ### Everything the parser produces is well-formed -/

mutual
theorem parseVal_wf :
    ∀ (fuel : Nat) (cs : List Char) (v : Json) (r : List Char),
      parseVal fuel cs = some (v, r) → wfVal v = true
  | 0, _, _, _, h => by simp [parseVal] at h
  | fuel + 1, cs, v, r, h => by
    simp only [parseVal] at h
    repeat' split at h
    all_goals first
      | contradiction
      | (simp only [Option.some.injEq, Prod.mk.injEq] at h
         obtain ⟨rfl, rfl⟩ := h
         first
           | rfl
           | (simp only [wfVal]
              exact parseElems_wf _ _ _ _ (by assumption))
           | (simp only [wfVal, Bool.and_eq_true]
              have hp := parseMembers_wf _ _ _ _ (by assumption)
              exact ⟨(buildObj_wf _ hp).1, (buildObj_wf _ hp).2⟩))
theorem parseElems_wf :
    ∀ (fuel : Nat) (cs : List Char) (es : List Json) (r : List Char),
      parseElems fuel cs = some (es, r) → wfElems es = true
  | 0, _, _, _, h => by simp [parseElems] at h
  | fuel + 1, cs, es, r, h => by
    simp only [parseElems] at h
    repeat' split at h
    all_goals first
      | contradiction
      | (simp only [Option.some.injEq, Prod.mk.injEq] at h
         obtain ⟨rfl, rfl⟩ := h
         simp only [wfElems, Bool.and_eq_true]
         constructor
         · exact parseVal_wf _ _ _ _ (by assumption)
         · first
             | exact parseElems_wf _ _ _ _ (by assumption)
             | trivial)
theorem parseMembers_wf :
    ∀ (fuel : Nat) (cs : List Char) (ms : List (String × Json)) (r : List Char),
      parseMembers fuel cs = some (ms, r) → wfMembers ms = true
  | 0, _, _, _, h => by simp [parseMembers] at h
  | fuel + 1, cs, ms, r, h => by
    simp only [parseMembers] at h
    repeat' split at h
    all_goals first
      | contradiction
      | (simp only [Option.some.injEq, Prod.mk.injEq] at h
         obtain ⟨rfl, rfl⟩ := h
         simp only [wfMembers, Bool.and_eq_true]
         constructor
         · exact parseVal_wf _ _ _ _ (by assumption)
         · first
             | exact parseMembers_wf _ _ _ _ (by assumption)
             | trivial)
end

/-- Every document `parseJson` accepts is well-formed. -/
theorem parseJson_wf (s : String) (v : Json) (h : parseJson s = some v) :
    wfVal v = true := by
  simp only [parseJson] at h
  split at h
  · rename_i v2 r heq
    split at h
    · cases h
      exact parseVal_wf _ _ _ _ heq
    · exact absurd h (by simp)
  · exact absurd h (by simp)

/-! ### Parsing inverts serialization -/

theorem parseVal_numStep (f : Nat) (c0 : Char) (t : List Char)
    (hside : isJsonWs c0 = false ∧ c0 ≠ '[' ∧ c0 ≠ '{' ∧ c0 ≠ '"' ∧
      c0 ≠ 'n' ∧ c0 ≠ 't' ∧ c0 ≠ 'f')
    (hg : (c0 = '-' || isDigitCh c0) = true) :
    parseVal (f + 1) (c0 :: t) =
      (match parseNum (c0 :: t) with
       | some (i, r2) => some (Json.num i, r2)
       | none => none) := by
  obtain ⟨hws, hbk, hbc, hq, hn, ht, hf2⟩ := hside
  have hskip : skipWs (c0 :: t) = c0 :: t := by simp [skipWs, hws]
  simp only [parseVal, hskip]
  simp [hn, ht, hf2, hq, hbk, hbc, hg]

theorem parseVal_num (i : Int) (f : Nat) (rest : List Char) (hr : numDelim rest = true) :
    parseVal (f + 1) (renderInt i ++ rest) = some (Json.num i, rest) := by
  by_cases hm : i < 0
  · have harg : renderInt i ++ rest = '-' :: (natDigits i.natAbs [] ++ rest) := by
      simp [renderInt, hm]
    rw [harg, parseVal_numStep f '-' _ (by decide) (by decide), ← harg,
      parseNum_renderInt i rest hr]
  · obtain ⟨c0, t0, h0, hdig, -⟩ := natDigits_cons i.natAbs
    obtain ⟨hws, hrb, hcb, hbk, hbc, hq, hn, ht, hf2⟩ := digit_head_props hdig
    have harg : renderInt i ++ rest = c0 :: (t0 ++ rest) := by
      simp [renderInt, hm, h0]
    rw [harg, parseVal_numStep f c0 _ ⟨hws, hbk, hbc, hq, hn, ht, hf2⟩ (by simp [hdig]),
      ← harg, parseNum_renderInt i rest hr]

theorem skipWs_renderElems (e : Json) (es : List Json) (x : List Char) :
    skipWs (renderElems (e :: es) ++ x) = renderElems (e :: es) ++ x := by
  have hsplit : renderElems (e :: es) ++ x = render e ++ (renderSepElems es ++ x) := by
    simp [renderElems, List.append_assoc]
  rw [hsplit]
  exact skipWs_render e _

theorem parseVal_arrStep (f : Nat) (e : Json) (es : List Json) (rest : List Char) :
    parseVal (f + 1) ('[' :: (renderElems (e :: es) ++ ']' :: rest)) =
      (match parseElems f (renderElems (e :: es) ++ ']' :: rest) with
       | some (vs, r3) => some (Json.arr vs, r3)
       | none => none) := by
  obtain ⟨c, t, hcons, hws, hrb, hcb⟩ := render_head e
  have hE : renderElems (e :: es) ++ ']' :: rest
      = c :: (t ++ (renderSepElems es ++ ']' :: rest)) := by
    simp [renderElems, hcons, List.append_assoc]
  have h1 : skipWs ('[' :: (renderElems (e :: es) ++ ']' :: rest))
      = '[' :: (renderElems (e :: es) ++ ']' :: rest) := by simp [skipWs, isJsonWs]
  have h2 := skipWs_renderElems e es (']' :: rest)
  simp only [parseVal, h1]
  rw [hE]
  rw [show skipWs (c :: (t ++ (renderSepElems es ++ ']' :: rest)))
      = c :: (t ++ (renderSepElems es ++ ']' :: rest)) from by simp [skipWs, hws]]
  simp [hrb]

theorem parseVal_objStep (f : Nat) (k : String) (v : Json) (ms : List (String × Json))
    (rest : List Char) :
    parseVal (f + 1) ('{' :: (renderMembers ((k, v) :: ms) ++ '}' :: rest)) =
      (match parseMembers f (renderMembers ((k, v) :: ms) ++ '}' :: rest) with
       | some (pairs, r3) => some (Json.obj (buildObj pairs), r3)
       | none => none) := by
  have hE : renderMembers ((k, v) :: ms) ++ '}' :: rest
      = '"' :: (k.data.flatMap escapeChar ++
          ('"' :: (':' :: (render v ++ (renderSepMembers ms ++ '}' :: rest))))) := by
    simp [renderMembers, renderStr, List.append_assoc]
  have h1 : skipWs ('{' :: (renderMembers ((k, v) :: ms) ++ '}' :: rest))
      = '{' :: (renderMembers ((k, v) :: ms) ++ '}' :: rest) := by simp [skipWs, isJsonWs]
  simp only [parseVal, h1]
  rw [hE]
  simp [skipWs, isJsonWs]

theorem parseElems_step (f : Nat) (cs : List Char) :
    parseElems (f + 1) cs =
      (match parseVal f cs with
       | none => none
       | some (v, r) =>
         match skipWs r with
         | ',' :: r2 =>
           (match parseElems f r2 with
            | some (vs, r3) => some (v :: vs, r3)
            | none => none)
         | ']' :: r2 => some ([v], r2)
         | _ => none) := rfl

theorem parseMembers_step (f : Nat) (cs : List Char) :
    parseMembers (f + 1) cs =
      (match skipWs cs with
       | '"' :: r =>
         (match parseStrBody r with
          | none => none
          | some (key, r1) =>
            match skipWs r1 with
            | ':' :: r2 =>
              (match parseVal f r2 with
               | none => none
               | some (v, r3) =>
                 match skipWs r3 with
                 | ',' :: r4 =>
                   (match parseMembers f r4 with
                    | some (ms, r5) => some ((String.mk key, v) :: ms, r5)
                    | none => none)
                 | '}' :: r4 => some ([(String.mk key, v)], r4)
                 | _ => none)
            | _ => none)
       | _ => none) := rfl

mutual
theorem rt_val : ∀ (v : Json) (fuel : Nat) (rest : List Char),
    wfVal v = true → (render v).length < fuel → numDelim rest = true →
    parseVal fuel (render v ++ rest) = some (v, rest)
  | .null, fuel, rest, _, hf, _ => by
    cases fuel with
    | zero => simp [render] at hf
    | succ f => simp [render, parseVal, skipWs, isJsonWs]
  | .bool b, fuel, rest, _, hf, _ => by
    cases fuel with
    | zero => cases b <;> simp [render] at hf
    | succ f => cases b <;> simp [render, parseVal, skipWs, isJsonWs]
  | .num i, fuel, rest, _, hf, hr => by
    cases fuel with
    | zero => exact absurd hf (Nat.not_lt_zero _)
    | succ f =>
      have : render (Json.num i) = renderInt i := rfl
      rw [this, parseVal_num i f rest hr]
  | .str s, fuel, rest, _, hf, _ => by
    cases fuel with
    | zero => exact absurd hf (Nat.not_lt_zero _)
    | succ f =>
      have harg : render (Json.str s) ++ rest
          = '"' :: (s.data.flatMap escapeChar ++ ('"' :: rest)) := by
        simp [render, renderStr]
      rw [harg]
      simp [parseVal, skipWs, isJsonWs, parseStrBody_render]
  | .arr [], fuel, rest, _, hf, _ => by
    cases fuel with
    | zero => simp [render, renderElems] at hf
    | succ f => simp [render, renderElems, parseVal, skipWs, isJsonWs]
  | .arr (e :: es), fuel, rest, hwf, hf, _ => by
    cases fuel with
    | zero => exact absurd hf (Nat.not_lt_zero _)
    | succ f =>
      have hwf2 : wfElems (e :: es) = true := hwf
      have hfe : (renderElems (e :: es)).length + 1 < f := by
        have : render (Json.arr (e :: es)) = '[' :: (renderElems (e :: es) ++ [']']) := rfl
        rw [this] at hf
        simp only [List.length_cons, List.length_append, List.length_singleton] at hf
        omega
      have key := rt_elems e es f rest hwf2 hfe
      have harg : render (Json.arr (e :: es)) ++ rest
          = '[' :: (renderElems (e :: es) ++ ']' :: rest) := by
        simp [render, List.append_assoc]
      rw [harg, parseVal_arrStep f e es rest, key]
  | .obj [], fuel, rest, _, hf, _ => by
    cases fuel with
    | zero => simp [render, renderMembers] at hf
    | succ f => simp [render, renderMembers, parseVal, skipWs, isJsonWs]
  | .obj ((k, v) :: ms), fuel, rest, hwf, hf, _ => by
    cases fuel with
    | zero => exact absurd hf (Nat.not_lt_zero _)
    | succ f =>
      have hwf2 : (keysNodup ((k, v) :: ms) && wfMembers ((k, v) :: ms)) = true := hwf
      rw [Bool.and_eq_true] at hwf2
      have hfm : (renderMembers ((k, v) :: ms)).length + 1 < f := by
        have : render (Json.obj ((k, v) :: ms))
            = '{' :: (renderMembers ((k, v) :: ms) ++ ['}']) := rfl
        rw [this] at hf
        simp only [List.length_cons, List.length_append, List.length_singleton] at hf
        omega
      have key := rt_members (k, v) ms f rest hwf2.2 hfm
      have harg : render (Json.obj ((k, v) :: ms)) ++ rest
          = '{' :: (renderMembers ((k, v) :: ms) ++ '}' :: rest) := by
        simp [render, List.append_assoc]
      rw [harg, parseVal_objStep f k v ms rest, key]
      simp [buildObj_nodup_id _ hwf2.1]
termination_by v _ _ _ _ _ => sizeOf v
theorem rt_elems : ∀ (e : Json) (es : List Json) (fuel : Nat) (rest : List Char),
    wfElems (e :: es) = true → (renderElems (e :: es)).length + 1 < fuel →
    parseElems fuel (renderElems (e :: es) ++ ']' :: rest) = some (e :: es, rest)
  | e, [], fuel, rest, hwf, hf => by
    cases fuel with
    | zero => omega
    | succ f =>
      have hwfe : wfVal e = true := by
        have := hwf
        simp only [wfElems, Bool.and_eq_true] at this
        exact this.1
      have hfe : (render e).length < f := by
        simp only [renderElems, renderSepElems, List.append_nil, List.length_append,
          List.length_nil] at hf
        omega
      have hv := rt_val e f (']' :: rest) hwfe hfe rfl
      have harg : renderElems (e :: []) ++ ']' :: rest = render e ++ ']' :: rest := by
        simp [renderElems, renderSepElems]
      rw [harg, parseElems_step, hv]
      simp [skipWs, isJsonWs]
  | e, x :: xs, fuel, rest, hwf, hf => by
    cases fuel with
    | zero => omega
    | succ f =>
      have hwfe : wfVal e = true := by
        have := hwf
        simp only [wfElems, Bool.and_eq_true] at this
        exact this.1
      have hwft : wfElems (x :: xs) = true := by
        have := hwf
        simp only [wfElems, Bool.and_eq_true] at this
        simp only [wfElems, Bool.and_eq_true]
        exact this.2
      have hepos : 0 < (render e).length :=
        List.length_pos.mpr (render_ne_nil e)
      have hlen : (renderElems (e :: x :: xs)).length
          = (render e).length + 1 + (renderElems (x :: xs)).length := by
        simp only [renderElems, renderSepElems_cons, List.length_append, List.length_cons]
        omega
      have hfe : (render e).length < f := by omega
      have hfx : (renderElems (x :: xs)).length + 1 < f := by omega
      have hv := rt_val e f (',' :: (renderElems (x :: xs) ++ ']' :: rest)) hwfe hfe rfl
      have key := rt_elems x xs f rest hwft hfx
      have harg : renderElems (e :: x :: xs) ++ ']' :: rest
          = render e ++ ',' :: (renderElems (x :: xs) ++ ']' :: rest) := by
        simp only [renderElems, renderSepElems_cons, List.cons_append, List.append_assoc]
      have hcomma : skipWs (',' :: (renderElems (x :: xs) ++ ']' :: rest))
          = ',' :: (renderElems (x :: xs) ++ ']' :: rest) := by simp [skipWs, isJsonWs]
      rw [harg, parseElems_step, hv]
      simp only [hcomma, key]
termination_by e es _ _ _ _ => sizeOf e + sizeOf es
theorem rt_members : ∀ (kv : String × Json) (ms : List (String × Json)) (fuel : Nat)
    (rest : List Char),
    wfMembers (kv :: ms) = true → (renderMembers (kv :: ms)).length + 1 < fuel →
    parseMembers fuel (renderMembers (kv :: ms) ++ '}' :: rest) = some (kv :: ms, rest)
  | (k, v), [], fuel, rest, hwf, hf => by
    cases fuel with
    | zero => omega
    | succ f =>
      have hwfv : wfVal v = true := by
        have := hwf
        simp only [wfMembers, Bool.and_eq_true] at this
        exact this.1
      have hfe : (render v).length < f := by
        simp only [renderMembers, renderSepMembers, List.append_nil, List.length_append,
          List.length_cons, renderStr] at hf
        omega
      have hv := rt_val v f ('}' :: rest) hwfv hfe rfl
      have harg : renderMembers ((k, v) :: []) ++ '}' :: rest
          = '"' :: (k.data.flatMap escapeChar
              ++ ('"' :: (':' :: (render v ++ '}' :: rest)))) := by
        simp [renderMembers, renderSepMembers, renderStr, List.append_assoc]
      rw [harg, parseMembers_step]
      simp [skipWs, isJsonWs, parseStrBody_render, hv]
  | (k, v), (k2, v2) :: ms2, fuel, rest, hwf, hf => by
    cases fuel with
    | zero => omega
    | succ f =>
      have hwfv : wfVal v = true := by
        have := hwf
        simp only [wfMembers, Bool.and_eq_true] at this
        exact this.1
      have hwft : wfMembers ((k2, v2) :: ms2) = true := by
        have := hwf
        simp only [wfMembers, Bool.and_eq_true] at this
        simp only [wfMembers, Bool.and_eq_true]
        exact this.2
      have hlen : (renderMembers ((k, v) :: (k2, v2) :: ms2)).length
          = (renderStr k).length + 1 + (render v).length + 1 +
            (renderMembers ((k2, v2) :: ms2)).length := by
        simp only [renderMembers, renderSepMembers_cons, List.length_append, List.length_cons]
        omega
      have hkpos : 0 < (renderStr k).length := by simp [renderStr]
      have hfe : (render v).length < f := by omega
      have hfx : (renderMembers ((k2, v2) :: ms2)).length + 1 < f := by omega
      have hv := rt_val v f
        (',' :: (renderMembers ((k2, v2) :: ms2) ++ '}' :: rest)) hwfv hfe rfl
      have key := rt_members (k2, v2) ms2 f rest hwft hfx
      have harg : renderMembers ((k, v) :: (k2, v2) :: ms2) ++ '}' :: rest
          = '"' :: (k.data.flatMap escapeChar
              ++ ('"' :: (':' :: (render v
                ++ (',' :: (renderMembers ((k2, v2) :: ms2) ++ '}' :: rest)))))) := by
        simp [renderMembers, renderSepMembers_cons, renderStr, List.append_assoc]
      have hm : skipWs ('"' :: (renderMembers ((k2, v2) :: ms2) ++ '}' :: rest))
          = '"' :: (renderMembers ((k2, v2) :: ms2) ++ '}' :: rest) := by
        simp [skipWs, isJsonWs]
      rw [harg, parseMembers_step]
      simp [skipWs, isJsonWs, parseStrBody_render, hv, key]
termination_by kv ms _ _ _ _ => sizeOf kv + sizeOf ms
end

/-- Round trip at the document level: re-parsing a compact serialization
recovers the value exactly. -/
theorem parseJson_render (v : Json) (hwf : wfVal v = true) :
    parseJson (String.mk (render v)) = some v := by
  simp only [parseJson]
  have hrt := rt_val v ((render v).length + 1) [] hwf (by omega) rfl
  rw [List.append_nil] at hrt
  rw [hrt]
  rfl

/-- C7: for every string `X` the model parses as JSON, compressing and then
formatting at indent 2 gives exactly the same text as formatting `X`
directly. -/
theorem C7_format_compress (X c : String) (h : compress_json X = Except.ok c) :
    format_json c (some 2) = format_json X (some 2) := by
  simp only [compress_json] at h
  cases hp : parseJson X with
  | none =>
    rw [hp] at h
    exact absurd h (by simp)
  | some v =>
    rw [hp] at h
    simp only [Except.ok.injEq] at h
    subst h
    have hwf := parseJson_wf X v hp
    simp only [format_json, hp, parseJson_render v hwf]

/-- C7 witness: a concrete document with whitespace, an object, an array, a
number and a boolean. -/
theorem C7_format_compress_witness :
    compress_json "\x7b \"a\" : [ 1 , true ] \x7d" = Except.ok "\x7b\"a\":[1,true]\x7d" ∧
      format_json "\x7b\"a\":[1,true]\x7d" (some 2) =
        format_json "\x7b \"a\" : [ 1 , true ] \x7d" (some 2) :=
  ⟨rfl, C7_format_compress "\x7b \"a\" : [ 1 , true ] \x7d" "\x7b\"a\":[1,true]\x7d" rfl⟩

end Pandia
